import Mathlib

set_option autoImplicit false

namespace SkillsMW

/-- Skill metadata record (name, description, resolved path), as produced by
`list_skills` and consumed by `SkillsMiddleware` in
`src/agent/src/skills/middleware.py`. -/
structure SkillMetadata where
  name : String
  description : String
  path : String
  deriving Repr, DecidableEq

/-- Full content of a skill (the `SkillContent` TypedDict of
`src/agent/src/skills/middleware.py`). -/
structure SkillContent where
  name : String
  description : String
  content : String
  deriving Repr, DecidableEq

/-- State of one path on disk, as observed by `_load_skill_contents`:
the path may be absent (`Path.exists()` returns `False`), present but
unreadable (`read_text` raises `OSError`/`UnicodeDecodeError`), or
readable with some text. -/
inductive FileState where
  | absent : FileState
  | unreadable : FileState
  | readable : String → FileState
  deriving Repr, DecidableEq

/-- A filesystem is a map from paths to file states. -/
def FS : Type := String → FileState

/-- Python-dict assignment `d[k] = v`: replace the value of an existing key
in place, otherwise append the new binding at the end (insertion order). -/
def dictInsert : List (String × SkillContent) → String → SkillContent → List (String × SkillContent)
  | [], k, v => [(k, v)]
  | (k₀, v₀) :: rest, k, v =>
      if k₀ = k then (k, v) :: rest else (k₀, v₀) :: dictInsert rest k v

/-- Python-dict lookup `d.get(k)` / `k in d` on the insertion-ordered model. -/
def lookupContent : List (String × SkillContent) → String → Option SkillContent
  | [], _ => none
  | (k₀, v₀) :: rest, k => if k₀ = k then some v₀ else lookupContent rest k

/-- Loop body of `SkillsMiddleware._load_skill_contents`: if the path exists
try to read it, storing a `SkillContent` on success and skipping the skill
on `OSError`/`UnicodeDecodeError`; if the path does not exist, skip. -/
def loadStep (fs : FS) (contents : List (String × SkillContent)) (skill : SkillMetadata) :
    List (String × SkillContent) :=
  match fs skill.path with
  | FileState.readable text =>
      dictInsert contents skill.name ⟨skill.name, skill.description, text⟩
  | FileState.unreadable => contents
  | FileState.absent => contents

/-- `SkillsMiddleware._load_skill_contents`: fold the loop body over the
catalog, starting from the empty dict. -/
def loadSkillContents (fs : FS) (skills : List SkillMetadata) : List (String × SkillContent) :=
  List.foldl (loadStep fs) [] skills

/-- `SkillsMiddleware._format_skills_list`: placeholder on the empty catalog,
otherwise one `- **<name>**: <description>` line per entry joined by `\n`. -/
def formatSkillsList (skills : List SkillMetadata) : String :=
  match skills with
  | [] => "(No skills available yet.)"
  | _ :: _ =>
      String.intercalate "\n"
        (skills.map (fun skill => "- **" ++ skill.name ++ "**: " ++ skill.description))

/-- Leading part of `SKILLS_SYSTEM_PROMPT`, up to the `skills_list`
substitution point. -/
def promptHeader : String :=
  "\n\n## Skills System\n\nYou have access to a skills library that provides specialized capabilities and domain knowledge.\n\n**Available Skills:**\n\n"

/-- Trailing part of `SKILLS_SYSTEM_PROMPT`, after the `skills_list`
substitution point. -/
def promptFooter : String :=
  "\n\n**How to Use Skills:**\n\nWhen a task matches a skill's domain, the full skill instructions will be provided to you automatically based on context. Skills provide:\n- Step-by-step workflows\n- Best practices and patterns\n- Domain-specific guidance\n\n**When Skills Apply:**\n- When the user's request matches a skill's domain (e.g., frontend work → frontend-design skill)\n- When you need specialized knowledge or structured workflows\n- When a skill provides proven patterns for complex tasks\n\nRemember: Skills are tools to make you more capable and consistent!\n"

/-- `SKILLS_SYSTEM_PROMPT.format(skills_list=skillsList)`: the fixed
documentation block with the one substitution point filled in. -/
def renderSkillsSystemPrompt (skillsList : String) : String :=
  promptHeader ++ skillsList ++ promptFooter

/-- One auto-injected section, `f"\n\n## Skill: {...}\n\n{...}"` of
`_format_injected_skills`. -/
def skillSection (skill : SkillContent) : String :=
  "\n\n## Skill: " ++ skill.name ++ "\n\n" ++ skill.content

/-- `SkillsMiddleware._format_injected_skills`: empty string when no
auto-inject list is configured; otherwise walk the configured names in
order, emit a section for each name present in the content dict, skip the
rest, and concatenate (`"".join(sections)`). -/
def formatInjectedSkills (autoInjectSkills : List String)
    (skillsContent : List (String × SkillContent)) : String :=
  match autoInjectSkills with
  | [] => ""
  | _ :: _ =>
      String.join (autoInjectSkills.filterMap (fun skillName =>
        match lookupContent skillsContent skillName with
        | some skill => some (skillSection skill)
        | none => none))

/-- Prompt-building steps of `SkillsMiddleware.wrap_model_call` (lines
271-289): format the skills list, substitute it into the documentation
template, append the auto-injected sections, and prepend the original
system prompt (with a `"\n\n"` separator) when it is truthy. -/
def augmentSystemPrompt (autoInjectSkills : List String) (systemPrompt : Option String)
    (skillsMetadata : List SkillMetadata)
    (skillsContent : List (String × SkillContent)) : String :=
  let skillsList := formatSkillsList skillsMetadata
  let skillsSection := renderSkillsSystemPrompt skillsList
  let injectedSkills := formatInjectedSkills autoInjectSkills skillsContent
  match systemPrompt with
  | some s =>
      if s = "" then skillsSection ++ injectedSkills
      else s ++ "\n\n" ++ skillsSection ++ injectedSkills
  | none => skillsSection ++ injectedSkills

/-- Prompt-building steps of `SkillsMiddleware.awrap_model_call` (lines
307-327), transcribed separately from the async code path. -/
def augmentSystemPromptAsync (autoInjectSkills : List String) (systemPrompt : Option String)
    (skillsMetadata : List SkillMetadata)
    (skillsContent : List (String × SkillContent)) : String :=
  let skillsList := formatSkillsList skillsMetadata
  let skillsSection := renderSkillsSystemPrompt skillsList
  let injectedSkills := formatInjectedSkills autoInjectSkills skillsContent
  match systemPrompt with
  | some s =>
      if s = "" then skillsSection ++ injectedSkills
      else s ++ "\n\n" ++ skillsSection ++ injectedSkills
  | none => skillsSection ++ injectedSkills

/-- A `ModelRequest`: the system prompt (possibly `None`), the skills state
read via `request.state.get(...)` with its defaults already applied, and
all remaining fields of the request bundled as `rest`. -/
structure ModelRequest (α : Type) where
  systemPrompt : Option String
  skillsMetadata : List SkillMetadata
  skillsContent : List (String × SkillContent)
  rest : α

/-- `request.override(system_prompt=newPrompt)`: same request with only the
system prompt replaced. -/
def overrideSystemPrompt {α : Type} (request : ModelRequest α) (newPrompt : String) :
    ModelRequest α :=
  ⟨some newPrompt, request.skillsMetadata, request.skillsContent, request.rest⟩

/-- `SkillsMiddleware.wrap_model_call`: build the augmented prompt and call
the handler on the overridden request, returning its response. -/
def wrapModelCall {α ρ : Type} (autoInjectSkills : List String)
    (request : ModelRequest α) (handler : ModelRequest α → ρ) : ρ :=
  handler (overrideSystemPrompt request
    (augmentSystemPrompt autoInjectSkills request.systemPrompt
      request.skillsMetadata request.skillsContent))

/-- `SkillsMiddleware.awrap_model_call`: the async code path, same shape with
the async prompt construction. -/
def awrapModelCall {α ρ : Type} (autoInjectSkills : List String)
    (request : ModelRequest α) (handler : ModelRequest α → ρ) : ρ :=
  handler (overrideSystemPrompt request
    (augmentSystemPromptAsync autoInjectSkills request.systemPrompt
      request.skillsMetadata request.skillsContent))

/-- Modelled from the spec: `list_skills` is imported from
`src/skills/load.py`, which is not among the provided sources. Following
spec §4.1, we model its merge step over the two per-scope catalogs (the
results of scanning each directory root): build the user-scope catalog
first, then for each project-scope skill replace any user-scope entry with
the same `name` (exact string match) in place, and append project-scope
skills whose name matches no user-scope entry. `overrideEntry` is the
in-place replacement applied to one user-scope entry: the project-scope
record with the same name if one exists, else the entry itself. -/
def overrideEntry (projectCatalog : List SkillMetadata) (u : SkillMetadata) : SkillMetadata :=
  match projectCatalog.find? (fun p => p.name = u.name) with
  | some p => p
  | none => u

/-- Modelled from the spec: the merged catalog (see `overrideEntry` for the
in-place replacement of overridden user-scope entries). -/
def list_skills (userCatalog projectCatalog : List SkillMetadata) : List SkillMetadata :=
  userCatalog.map (overrideEntry projectCatalog)
  ++ projectCatalog.filter (fun p => userCatalog.all (fun u => u.name ≠ p.name))

/-- `SkillsMiddleware.before_agent`: run the loader, then the content cache,
and return the state update `(skills_metadata, skills_content)`. -/
def beforeAgent (fs : FS) (userCatalog projectCatalog : List SkillMetadata) :
    List SkillMetadata × List (String × SkillContent) :=
  let skills := list_skills userCatalog projectCatalog
  let skillsContent := loadSkillContents fs skills
  (skills, skillsContent)

/-- `SkillsMiddleware.abefore_agent`: the async code path offloads the same
two calls (`asyncio.to_thread`) and returns the same state update. -/
def abeforeAgent (fs : FS) (userCatalog projectCatalog : List SkillMetadata) :
    List SkillMetadata × List (String × SkillContent) :=
  let skills := list_skills userCatalog projectCatalog
  let skillsContent := loadSkillContents fs skills
  (skills, skillsContent)

/-- Number of occurrences of `pat` in a character list (positions counted,
used to count `## Skill:` section markers). -/
def countSubstrAux (pat : List Char) : List Char → Nat
  | [] => 0
  | c :: rest => (if pat.isPrefixOf (c :: rest) then 1 else 0) + countSubstrAux pat rest

/-- Number of occurrences of the pattern `pat` in the string `s`. -/
def countSubstr (pat s : String) : Nat := countSubstrAux pat.data s.data

/-- Concrete demo filesystem: one readable skill file, one present but
unreadable skill file, everything else absent. -/
def fsDemo : FS := fun p =>
  if p = "/u/alpha/SKILL.md" then FileState.readable "alpha body"
  else if p = "/u/beta/SKILL.md" then FileState.unreadable
  else FileState.absent

/-- Concrete demo content map holding skills `A` and `B`. -/
def contentDemo : List (String × SkillContent) :=
  [("A", ⟨"A", "descA", "contentA"⟩), ("B", ⟨"B", "descB", "contentB"⟩)]

/-- Concrete demo content map where only `A` loaded successfully. -/
def contentDemoA : List (String × SkillContent) :=
  [("A", ⟨"A", "descA", "contentA"⟩)]

theorem str_empty_append (s : String) : "" ++ s = s := by
  cases s
  rfl

theorem str_append_empty (s : String) : s ++ "" = s := by
  cases s with
  | mk data =>
      show String.mk (data ++ []) = String.mk data
      rw [List.append_nil]

theorem str_append_assoc (a b c : String) : a ++ b ++ c = a ++ (b ++ c) := by
  cases a with
  | mk da =>
    cases b with
    | mk db =>
      cases c with
      | mk dc =>
        show String.mk (da ++ db ++ dc) = String.mk (da ++ (db ++ dc))
        rw [List.append_assoc]

theorem lookup_dictInsert (d : List (String × SkillContent)) (n k : String) (v : SkillContent) :
    lookupContent (dictInsert d n v) k = if k = n then some v else lookupContent d k := by
  induction d with
  | nil =>
      simp only [dictInsert, lookupContent]
      by_cases h : n = k
      · subst h
        simp
      · rw [if_neg h, if_neg (fun hh : k = n => h hh.symm)]
  | cons hd tl ih =>
      obtain ⟨k₀, v₀⟩ := hd
      by_cases h₀ : k₀ = n
      · subst h₀
        by_cases hk : k₀ = k
        · subst hk
          simp [dictInsert, lookupContent]
        · have hk' : ¬k = k₀ := fun hh => hk hh.symm
          simp [dictInsert, lookupContent, hk, hk']
      · by_cases hk : k₀ = k
        · subst hk
          simp [dictInsert, lookupContent, h₀]
        · simp [dictInsert, lookupContent, h₀, hk, ih]

theorem lookup_foldLoad_isSome (fs : FS) (skills : List SkillMetadata) :
    ∀ (acc : List (String × SkillContent)) (k : String),
      (lookupContent (List.foldl (loadStep fs) acc skills) k).isSome
        ↔ ((lookupContent acc k).isSome
            ∨ ∃ s, s ∈ skills ∧ s.name = k ∧ ∃ text, fs s.path = FileState.readable text) := by
  induction skills with
  | nil =>
      intro acc k
      simp
  | cons s rest ih =>
      intro acc k
      rw [List.foldl_cons, ih]
      cases hfs : fs s.path with
      | absent =>
          simp [loadStep, hfs, List.mem_cons, or_assoc]
      | unreadable =>
          simp [loadStep, hfs, List.mem_cons, or_assoc]
      | readable text =>
          simp only [loadStep, hfs]
          rw [lookup_dictInsert]
          by_cases hk : k = s.name
          · subst hk
            simp [hfs, List.mem_cons]
          · have hk' : ¬s.name = k := fun hh => hk hh.symm
            rw [if_neg hk]
            simp [List.mem_cons, hk', or_assoc]

theorem lookup_foldLoad_eq_some (fs : FS) (skills : List SkillMetadata) :
    ∀ (acc : List (String × SkillContent)) (k : String) (v : SkillContent),
      lookupContent (List.foldl (loadStep fs) acc skills) k = some v →
      lookupContent acc k = some v
      ∨ ∃ s, s ∈ skills ∧ s.name = k ∧ v.name = s.name ∧ v.description = s.description
          ∧ fs s.path = FileState.readable v.content := by
  induction skills with
  | nil =>
      intro acc k v h
      exact Or.inl h
  | cons s rest ih =>
      intro acc k v h
      rw [List.foldl_cons] at h
      rcases ih _ k v h with hacc | ⟨s', hmem, hrest⟩
      · cases hfs : fs s.path with
        | absent =>
            simp only [loadStep, hfs] at hacc
            exact Or.inl hacc
        | unreadable =>
            simp only [loadStep, hfs] at hacc
            exact Or.inl hacc
        | readable text =>
            simp only [loadStep, hfs] at hacc
            rw [lookup_dictInsert] at hacc
            by_cases hk : k = s.name
            · rw [if_pos hk] at hacc
              obtain rfl := (Option.some.inj hacc).symm
              exact Or.inr ⟨s, List.mem_cons_self s rest, hk.symm, rfl, rfl, hfs⟩
            · rw [if_neg hk] at hacc
              exact Or.inl hacc
      · exact Or.inr ⟨s', List.mem_cons_of_mem s hmem, hrest⟩

theorem filterMap_emptyContent (l : List String) :
    (l.filterMap (fun skillName =>
      match lookupContent [] skillName with
      | some skill => some (skillSection skill)
      | none => none)) = [] := by
  induction l with
  | nil => rfl
  | cons a rest ih => simp [List.filterMap_cons, lookupContent, ih]

theorem formatInjected_empty (autoInjectSkills : List String) :
    formatInjectedSkills autoInjectSkills [] = "" := by
  cases autoInjectSkills with
  | nil => rfl
  | cons a rest =>
      simp only [formatInjectedSkills]
      rw [filterMap_emptyContent]
      rfl

theorem filter_name_eq_single (X : String) :
    ∀ (l : List SkillMetadata) (x : SkillMetadata),
      (l.map SkillMetadata.name).Nodup → x ∈ l → x.name = X →
      l.filter (fun s => s.name = X) = [x] := by
  intro l
  induction l with
  | nil =>
      intro x _ hx _
      simp at hx
  | cons h t ih =>
      intro x hnd hx hname
      rw [List.map_cons, List.nodup_cons] at hnd
      obtain ⟨hnotin, hnd'⟩ := hnd
      rcases List.mem_cons.mp hx with rfl | hxt
      · have hpt : t.filter (fun s => s.name = X) = [] := by
          rw [List.filter_eq_nil_iff]
          intro a ha
          simp only [decide_eq_true_eq]
          intro hax
          have hmm : a.name ∈ t.map SkillMetadata.name := List.mem_map_of_mem _ ha
          rw [hax, ← hname] at hmm
          exact hnotin hmm
        simp [List.filter_cons, hname, hpt]
      · have hhX : ¬h.name = X := by
          intro hh
          have hmm : x.name ∈ t.map SkillMetadata.name := List.mem_map_of_mem _ hxt
          rw [hname, ← hh] at hmm
          exact hnotin hmm
        simp only [List.filter_cons, decide_eq_true_eq]
        rw [if_neg hhX]
        exact ih x hnd' hxt hname

theorem find_name_eq (X : String) :
    ∀ (l : List SkillMetadata) (p₀ : SkillMetadata),
      (l.map SkillMetadata.name).Nodup → p₀ ∈ l → p₀.name = X →
      l.find? (fun s => s.name = X) = some p₀ := by
  intro l
  induction l with
  | nil =>
      intro p₀ _ hp _
      simp at hp
  | cons h t ih =>
      intro p₀ hnd hp hname
      rw [List.map_cons, List.nodup_cons] at hnd
      obtain ⟨hnotin, hnd'⟩ := hnd
      rcases List.mem_cons.mp hp with rfl | hpt
      · exact List.find?_cons_of_pos _ (by simp [hname])
      · have hhX : ¬h.name = X := by
          intro hh
          have hmm : p₀.name ∈ t.map SkillMetadata.name := List.mem_map_of_mem _ hpt
          rw [hname, ← hh] at hmm
          exact hnotin hmm
        rw [List.find?_cons_of_neg _ (by simp [hhX])]
        exact ih p₀ hnd' hpt hname

/-- C1 (counterexample): the listing line for a catalog entry is not of the
plain form `- <name>: <description>`; the rendered name carries `**`
markers. -/
theorem formatSkillsList_plain_format_counterexample :
    formatSkillsList [⟨"alpha", "does things", "/p"⟩] ≠ "- alpha: does things" := by
  decide

/-- C1 (amended): the listing rendering produces exactly one line per
catalog entry in catalog order, each line of the form
`- **<name>**: <description>` (the name is bold-marked), and the empty
catalog renders the fixed placeholder line. -/
theorem formatSkillsList_lines (skills : List SkillMetadata) :
    (skills = [] → formatSkillsList skills = "(No skills available yet.)")
    ∧ (skills ≠ [] →
        formatSkillsList skills
          = String.intercalate "\n"
              (skills.map (fun skill => "- **" ++ skill.name ++ "**: " ++ skill.description))) := by
  constructor
  · intro h
    subst h
    rfl
  · intro h
    match skills, h with
    | s :: rest, _ => rfl

/-- C1 witness: the amended rendering evaluated on a one-entry catalog. -/
theorem formatSkillsList_lines_witness :
    formatSkillsList [⟨"alpha", "does things", "/p"⟩]
      = String.intercalate "\n" ["- **" ++ "alpha" ++ "**: " ++ "does things"] :=
  (formatSkillsList_lines [⟨"alpha", "does things", "/p"⟩]).2 (by decide)

/-- C4: the prompt rendering is a deterministic function of the system
prompt, the metadata catalog, the content map and the auto-inject list:
identical inputs give byte-identical output. -/
theorem augmentSystemPrompt_deterministic
    (auto₁ auto₂ : List String) (sp₁ sp₂ : Option String)
    (m₁ m₂ : List SkillMetadata) (c₁ c₂ : List (String × SkillContent))
    (hauto : auto₁ = auto₂) (hsp : sp₁ = sp₂) (hm : m₁ = m₂) (hc : c₁ = c₂) :
    augmentSystemPrompt auto₁ sp₁ m₁ c₁ = augmentSystemPrompt auto₂ sp₂ m₂ c₂ := by
  subst hauto
  subst hsp
  subst hm
  subst hc
  rfl

/-- C4 witness: determinism instantiated at a concrete input. -/
theorem augmentSystemPrompt_deterministic_witness :
    augmentSystemPrompt ["A"] (some "sys") [] [] = augmentSystemPrompt ["A"] (some "sys") [] [] :=
  augmentSystemPrompt_deterministic ["A"] ["A"] (some "sys") (some "sys") [] [] [] []
    rfl rfl rfl rfl

/-- C5: composition order of the augmented prompt: a truthy original system
prompt, then the two-newline separator, then the rendered documentation
block, then the auto-injected sections; with no (or an empty) original
prompt, the documentation block plus injected sections with no leading
separator. -/
theorem augmentSystemPrompt_composition
    (autoInjectSkills : List String) (skillsMetadata : List SkillMetadata)
    (skillsContent : List (String × SkillContent)) :
    (∀ s : String, s ≠ "" →
        augmentSystemPrompt autoInjectSkills (some s) skillsMetadata skillsContent
          = s ++ "\n\n"
              ++ renderSkillsSystemPrompt (formatSkillsList skillsMetadata)
              ++ formatInjectedSkills autoInjectSkills skillsContent)
    ∧ augmentSystemPrompt autoInjectSkills none skillsMetadata skillsContent
        = renderSkillsSystemPrompt (formatSkillsList skillsMetadata)
            ++ formatInjectedSkills autoInjectSkills skillsContent
    ∧ augmentSystemPrompt autoInjectSkills (some "") skillsMetadata skillsContent
        = renderSkillsSystemPrompt (formatSkillsList skillsMetadata)
            ++ formatInjectedSkills autoInjectSkills skillsContent := by
  refine ⟨fun s hs => ?_, rfl, rfl⟩
  simp only [augmentSystemPrompt, if_neg hs]

/-- C5 witness: the composition evaluated with a concrete non-empty
original prompt. -/
theorem augmentSystemPrompt_composition_witness :
    augmentSystemPrompt [] (some "base prompt") [] []
      = "base prompt" ++ "\n\n"
          ++ renderSkillsSystemPrompt (formatSkillsList [])
          ++ formatInjectedSkills [] [] :=
  (augmentSystemPrompt_composition [] [] []).1 "base prompt" (by decide)

/-- C8: the synchronous and asynchronous entry points agree: the async
model-call wrapper computes the same result as the sync one for every
request and handler, and the async session hook produces the same state
update as the sync one on the same filesystem contents. -/
theorem sync_async_equiv :
    (∀ (α ρ : Type) (autoInjectSkills : List String)
        (request : ModelRequest α) (handler : ModelRequest α → ρ),
      awrapModelCall autoInjectSkills request handler
        = wrapModelCall autoInjectSkills request handler)
    ∧ (∀ (fs : FS) (userCatalog projectCatalog : List SkillMetadata),
      abeforeAgent fs userCatalog projectCatalog = beforeAgent fs userCatalog projectCatalog) :=
  ⟨fun _ _ _ _ _ => rfl, fun _ _ _ => rfl⟩

/-- C9: the model-call wrapper forwards to the handler a request identical
to the incoming one in every field except the system prompt, which it
replaces by the augmented text, and returns the handler's response
unmodified. -/
theorem wrapModelCall_frame {α ρ : Type} (autoInjectSkills : List String)
    (request : ModelRequest α) (handler : ModelRequest α → ρ) :
    ∃ forwarded : ModelRequest α,
      wrapModelCall autoInjectSkills request handler = handler forwarded
      ∧ forwarded.systemPrompt
          = some (augmentSystemPrompt autoInjectSkills request.systemPrompt
              request.skillsMetadata request.skillsContent)
      ∧ forwarded.skillsMetadata = request.skillsMetadata
      ∧ forwarded.skillsContent = request.skillsContent
      ∧ forwarded.rest = request.rest :=
  ⟨overrideSystemPrompt request
      (augmentSystemPrompt autoInjectSkills request.systemPrompt
        request.skillsMetadata request.skillsContent),
    rfl, rfl, rfl, rfl, rfl⟩

/-- C2: when a user-scope skill and a project-scope skill share the same
name `X` (and names are unique within each scope), the merged catalog
contains exactly one entry named `X`, and that entry is the project-scope
record (its description and path come from the project source). -/
theorem list_skills_override (user proj : List SkillMetadata) (u p : SkillMetadata) (X : String)
    (hu : (user.map SkillMetadata.name).Nodup)
    (hp : (proj.map SkillMetadata.name).Nodup)
    (humem : u ∈ user) (hpmem : p ∈ proj)
    (hun : u.name = X) (hpn : p.name = X) :
    (list_skills user proj).filter (fun s => s.name = X) = [p] := by
  subst hun
  rw [list_skills, List.filter_append]
  have hB : ((proj.filter (fun q => user.all (fun u' => u'.name ≠ q.name))).filter
      (fun s => s.name = u.name)) = [] := by
    rw [List.filter_eq_nil_iff]
    intro a ha
    simp only [decide_eq_true_eq]
    intro haX
    have hmf := List.mem_filter.mp ha
    have hall := List.all_eq_true.mp hmf.2 u humem
    simp only [ne_eq, decide_not, Bool.not_eq_eq_eq_not, Bool.not_true, decide_eq_false_iff_not] at hall
    exact hall haX.symm
  rw [hB, List.append_nil]
  have hfname : ∀ q : SkillMetadata, (overrideEntry proj q).name = q.name := by
    intro q
    cases hfind : proj.find? (fun p' => p'.name = q.name) with
    | none => simp [overrideEntry, hfind]
    | some p' =>
        have hpred := List.find?_some hfind
        simp only [decide_eq_true_eq] at hpred
        simp [overrideEntry, hfind, hpred]
  rw [List.filter_map]
  have hcongr : (user.filter ((fun s => decide (s.name = u.name)) ∘ overrideEntry proj))
      = user.filter (fun s => s.name = u.name) := by
    apply List.filter_congr
    intro a _
    simp [Function.comp, hfname a]
  rw [hcongr, filter_name_eq_single u.name user u hu humem rfl, List.map_cons, List.map_nil]
  have hov : overrideEntry proj u = p := by
    simp [overrideEntry, find_name_eq u.name proj p hp hpmem hpn]
  rw [hov]

/-- C2 witness: the concrete scenario from the spec: user scope defines
`frontend-design` with `desc1`, project scope defines `frontend-design`
with `desc2` and `api-style` with `desc3`. -/
theorem list_skills_override_witness :
    ((list_skills
        [⟨"frontend-design", "desc1", "/u/fd/SKILL.md"⟩]
        [⟨"frontend-design", "desc2", "/p/fd/SKILL.md"⟩, ⟨"api-style", "desc3", "/p/as/SKILL.md"⟩]).filter
      (fun s => s.name = "frontend-design"))
      = [⟨"frontend-design", "desc2", "/p/fd/SKILL.md"⟩] :=
  list_skills_override
    [⟨"frontend-design", "desc1", "/u/fd/SKILL.md"⟩]
    [⟨"frontend-design", "desc2", "/p/fd/SKILL.md"⟩, ⟨"api-style", "desc3", "/p/as/SKILL.md"⟩]
    ⟨"frontend-design", "desc1", "/u/fd/SKILL.md"⟩
    ⟨"frontend-design", "desc2", "/p/fd/SKILL.md"⟩
    "frontend-design"
    (by decide) (by decide) (by decide) (by decide) (by decide) (by decide)

/-- C3: auto-injection walks the configured list in order, appending a
`## Skill: <name>` header plus the skill's full content for each name
present in the content map and silently skipping absent names: with
`["A", "B"]` configured and both present the output is exactly the two
sections in that order, with `B` missing it is exactly the `A` section,
and in general the output is the concatenation, in configured order, of
one section per name found in the content map. -/
theorem formatInjectedSkills_sections (skillsContent : List (String × SkillContent))
    (a b : SkillContent) :
    (lookupContent skillsContent "A" = some a →
      lookupContent skillsContent "B" = some b →
      formatInjectedSkills ["A", "B"] skillsContent
        = "\n\n## Skill: " ++ a.name ++ "\n\n" ++ a.content
            ++ ("\n\n## Skill: " ++ b.name ++ "\n\n" ++ b.content))
    ∧ (lookupContent skillsContent "A" = some a →
      lookupContent skillsContent "B" = none →
      formatInjectedSkills ["A", "B"] skillsContent
        = "\n\n## Skill: " ++ a.name ++ "\n\n" ++ a.content)
    ∧ (∀ autoInjectSkills : List String,
      formatInjectedSkills autoInjectSkills skillsContent
        = String.join (autoInjectSkills.filterMap (fun skillName =>
            Option.map skillSection (lookupContent skillsContent skillName)))) := by
  refine ⟨fun hA hB => ?_, fun hA hB => ?_, fun autoInjectSkills => ?_⟩
  · have hjoin : formatInjectedSkills ["A", "B"] skillsContent
        = String.join [skillSection a, skillSection b] := by
      simp only [formatInjectedSkills, List.filterMap_cons, List.filterMap_nil, hA, hB]
    rw [hjoin]
    show ("" ++ skillSection a) ++ skillSection b = _
    rw [str_empty_append]
    rfl
  · have hjoin : formatInjectedSkills ["A", "B"] skillsContent
        = String.join [skillSection a] := by
      simp only [formatInjectedSkills, List.filterMap_cons, List.filterMap_nil, hA, hB]
    rw [hjoin]
    show "" ++ skillSection a = _
    rw [str_empty_append]
    rfl
  · cases autoInjectSkills with
    | nil => rfl
    | cons x rest =>
        simp only [formatInjectedSkills]
        congr 1
        congr 1
        funext skillName
        cases lookupContent skillsContent skillName <;> rfl

/-- C3 witness: both sections appear in order when `A` and `B` loaded; only
the `A` section appears when `B` is missing; the `## Skill:` marker occurs
exactly twice, respectively exactly once. -/
theorem formatInjectedSkills_sections_witness :
    (formatInjectedSkills ["A", "B"] contentDemo
      = "\n\n## Skill: " ++ (⟨"A", "descA", "contentA"⟩ : SkillContent).name ++ "\n\n"
          ++ (⟨"A", "descA", "contentA"⟩ : SkillContent).content
          ++ ("\n\n## Skill: " ++ (⟨"B", "descB", "contentB"⟩ : SkillContent).name ++ "\n\n"
              ++ (⟨"B", "descB", "contentB"⟩ : SkillContent).content))
    ∧ (formatInjectedSkills ["A", "B"] contentDemoA
      = "\n\n## Skill: " ++ (⟨"A", "descA", "contentA"⟩ : SkillContent).name ++ "\n\n"
          ++ (⟨"A", "descA", "contentA"⟩ : SkillContent).content)
    ∧ countSubstr "## Skill:" (formatInjectedSkills ["A", "B"] contentDemo) = 2
    ∧ countSubstr "## Skill:" (formatInjectedSkills ["A", "B"] contentDemoA) = 1 :=
  ⟨(formatInjectedSkills_sections contentDemo ⟨"A", "descA", "contentA"⟩
      ⟨"B", "descB", "contentB"⟩).1 (by decide) (by decide),
   (formatInjectedSkills_sections contentDemoA ⟨"A", "descA", "contentA"⟩
      ⟨"B", "descB", "contentB"⟩).2.1 (by decide) (by decide),
   by decide, by decide⟩

/-- C6: the content loader is total (never raises), stores an entry exactly
for those catalog entries whose path holds readable text, and its key set
is a subset of the catalog's name set. -/
theorem loadSkillContents_keys (fs : FS) (skills : List SkillMetadata) (k : String) :
    ((lookupContent (loadSkillContents fs skills) k).isSome
      ↔ ∃ s, s ∈ skills ∧ s.name = k ∧ ∃ text, fs s.path = FileState.readable text)
    ∧ ((lookupContent (loadSkillContents fs skills) k).isSome →
      ∃ s, s ∈ skills ∧ s.name = k) := by
  have h := lookup_foldLoad_isSome fs skills [] k
  have h' : (lookupContent (loadSkillContents fs skills) k).isSome
      ↔ ∃ s, s ∈ skills ∧ s.name = k ∧ ∃ text, fs s.path = FileState.readable text := by
    simpa [loadSkillContents, lookupContent] using h
  refine ⟨h', fun hs => ?_⟩
  obtain ⟨s, hmem, hname, -⟩ := h'.mp hs
  exact ⟨s, hmem, hname⟩

/-- C6 witness: on the demo filesystem, skill `alpha` (readable) yields an
entry; the hypotheses of the subset direction are discharged concretely. -/
theorem loadSkillContents_keys_witness :
    ∃ s, s ∈ [(⟨"alpha", "d1", "/u/alpha/SKILL.md"⟩ : SkillMetadata),
        ⟨"beta", "d2", "/u/beta/SKILL.md"⟩]
      ∧ s.name = "alpha" :=
  (loadSkillContents_keys fsDemo
    [⟨"alpha", "d1", "/u/alpha/SKILL.md"⟩, ⟨"beta", "d2", "/u/beta/SKILL.md"⟩] "alpha").2
    (by decide)

set_option maxRecDepth 10000 in
/-- C7: with zero skills discovered the pipeline degrades gracefully: the
listing renders the fixed placeholder, no auto-inject section is produced
whatever the configured list, the augmented prompt is exactly the
documentation block around the placeholder, and the `## Skill:` marker
does not occur in it. -/
theorem emptyCatalog_behavior (autoInjectSkills : List String) :
    formatSkillsList [] = "(No skills available yet.)"
    ∧ formatInjectedSkills autoInjectSkills [] = ""
    ∧ augmentSystemPrompt autoInjectSkills none [] []
        = renderSkillsSystemPrompt "(No skills available yet.)"
    ∧ countSubstr "## Skill:" (augmentSystemPrompt autoInjectSkills none [] []) = 0 := by
  have h2 : formatInjectedSkills autoInjectSkills [] = "" := formatInjected_empty _
  have h3 : augmentSystemPrompt autoInjectSkills none [] []
      = renderSkillsSystemPrompt "(No skills available yet.)" := by
    show renderSkillsSystemPrompt (formatSkillsList []) ++ formatInjectedSkills autoInjectSkills []
        = _
    rw [h2, str_append_empty]
    rfl
  refine ⟨rfl, h2, h3, ?_⟩
  rw [h3]
  decide

/-- C10: every record in the loaded content map is internally consistent
with its key: the stored `name` equals the key, and the `description` and
`content` come from a catalog entry with that name whose file was read. -/
theorem loadSkillContents_consistent (fs : FS) (skills : List SkillMetadata)
    (k : String) (v : SkillContent)
    (h : lookupContent (loadSkillContents fs skills) k = some v) :
    v.name = k
    ∧ ∃ s, s ∈ skills ∧ s.name = k ∧ v.description = s.description
        ∧ fs s.path = FileState.readable v.content := by
  rcases lookup_foldLoad_eq_some fs skills [] k v h with hnil | ⟨s, hmem, hname, hvn, hvd, hfs⟩
  · exact Option.noConfusion hnil
  · exact ⟨hvn.trans hname, s, hmem, hname, hvd, hfs⟩

/-- C10 witness: the record loaded for `alpha` on the demo filesystem
carries the catalog's name and description and the file's text. -/
theorem loadSkillContents_consistent_witness :
    (⟨"alpha", "d1", "alpha body"⟩ : SkillContent).name = "alpha"
    ∧ ∃ s, s ∈ [(⟨"alpha", "d1", "/u/alpha/SKILL.md"⟩ : SkillMetadata)]
        ∧ s.name = "alpha"
        ∧ (⟨"alpha", "d1", "alpha body"⟩ : SkillContent).description = s.description
        ∧ fsDemo s.path = FileState.readable (⟨"alpha", "d1", "alpha body"⟩ : SkillContent).content :=
  loadSkillContents_consistent fsDemo [⟨"alpha", "d1", "/u/alpha/SKILL.md"⟩] "alpha"
    ⟨"alpha", "d1", "alpha body"⟩ (by decide)

end SkillsMW
